import Mathlib

/-!
Shallow embedding of `src/prototype/csv_hashmap/csv_hashmap.cpp`.

The program reads a CSV file, resolves the positions of the required
columns `package`, `architecture`, `release` in the header line, builds an
in-memory map from the composite key `row[package]|row[arch]|row[release]`
to the full field sequence of the row (last write wins), reports the entry
count, and performs one hard-coded lookup.

Lines of the input file are modelled as a `List String` (what repeated
`std::getline(file, line)` delivers); the C++ `unordered_map` is modelled
as an association list with no duplicate keys; the `size_t` sentinel `-1`
(equal to `std::string::npos` on a 64-bit platform) is modelled as the
numeral `2^64 - 1`.
-/

namespace CsvHashmap


/-- The `std::string::npos` / `(size_t)-1` sentinel on a 64-bit platform. -/
def npos : Nat := 2 ^ 64 - 1

/-- The cell delimiter test used by `split_csv_row` (delimiter `','`). -/
def notComma (c : Char) : Bool := c ≠ ','

/-- Model of the `while (std::getline(ss, cell, ','))` loop inside
`split_csv_row`, on the character list of the line.  `std::getline` with a
delimiter fails exactly when the stream is already exhausted; otherwise it
reads up to (and consumes) the next delimiter, or up to end of input.
The `fuel` argument only bounds the number of loop iterations so that the
recursion is structural; `splitChars` below supplies enough fuel, and
`splitCharsFuel_congr` shows the result does not depend on it. -/
def splitCharsFuel : Nat → List Char → List (List Char)
  | 0, _ => []
  | fuel + 1, l =>
    if l = [] then []
    else
      let cell := l.takeWhile notComma
      let rest := l.dropWhile notComma
      if rest = [] then [cell]
      else cell :: splitCharsFuel fuel rest.tail

/-- The splitting loop of `split_csv_row`, on the character list. -/
def splitChars (l : List Char) : List (List Char) :=
  splitCharsFuel (l.length + 1) l

/-- `split_csv_row` from the source: split one line at every `','`. -/
def split_csv_row (line : String) : List String :=
  (splitChars line.data).map String.mk

/-- Standard splitting that keeps every empty segment, including a trailing
one: the delimiter-separated segments of the line as the spec describes
them ("preserving empty substrings between consecutive delimiters and at
both line boundaries").  Written from the spec's words, for comparison with
`splitChars`, which is written from the source. -/
def segmentsAux : List Char → List (List Char)
  | [] => [[]]
  | c :: cs =>
    if c = ',' then [] :: segmentsAux cs
    else
      match segmentsAux cs with
      | [] => [[c]]
      | s :: ss => (c :: s) :: ss

/-- The delimiter-separated segments of a line, as strings. -/
def lineSegments (line : String) : List String :=
  (segmentsAux line.data).map String.mk

/-! ## Header resolution

`main` scans the header left to right with one loop, overwriting each of
the three indices whenever the corresponding name matches, starting from
the sentinel `(size_t)-1 = npos`.  The last occurrence of a name wins. -/

/-- The loop `for (size_t i = 0; i < headers.size(); ++i) { if (headers[i]
== "package") package_idx = i; ... }`, with `i` the position of the head of
the remaining list. -/
def scanHeaders : List String → Nat → Nat × Nat × Nat → Nat × Nat × Nat
  | [], _, acc => acc
  | h :: t, i, (p, a, r) =>
    scanHeaders t (i + 1)
      (if h = "package" then i else p,
       if h = "architecture" then i else a,
       if h = "release" then i else r)

/-- Resolved `(package_idx, arch_idx, release_idx)` for a header row. -/
def resolveColumns (headers : List String) : Nat × Nat × Nat :=
  scanHeaders headers 0 (npos, npos, npos)

/-- `make_key` from the source: join the three selected fields with `|`.
Out-of-range access is undefined behaviour in C++; the caller guarantees
the indices are in range, and the embedding totalises with `""`. -/
def make_key (row : List String) (package_idx arch_idx release_idx : Nat) : String :=
  row.getD package_idx "" ++ "|" ++ row.getD arch_idx "" ++ "|" ++ row.getD release_idx ""

/-! ## The hash map

`std::unordered_map<std::string, std::vector<std::string>>`, modelled as an
association list whose keys are pairwise distinct.  `hashmap[key] = row`
overwrites the value when the key is present and inserts otherwise;
`hashmap.find` looks a key up; `hashmap.size()` is the number of keys. -/

/-- Association-list model of the entries of the `unordered_map`. -/
abbrev HMap := List (String × List String)

/-- `hashmap[key] = row`: overwrite if present, append if absent. -/
def hmInsert : HMap → String → List String → HMap
  | [], k, v => [(k, v)]
  | (k0, v0) :: rest, k, v =>
    if k0 = k then (k0, v) :: rest else (k0, v0) :: hmInsert rest k v

/-- `hashmap.find(key)`, as an optional value. -/
def hmFind : HMap → String → Option (List String)
  | [], _ => none
  | (k0, v0) :: rest, k => if k0 = k then some v0 else hmFind rest k

/-! ## Index construction

The `while (std::getline(file, line))` loop: number the line, split it,
skip it with a warning when its field count differs from the header's,
otherwise insert it under its composite key.  The loop is phrased on the
already-split rows; `buildIndex` composes it with `split_csv_row`, which is
exactly what the loop body does first with every line. -/

/-- State of the index-building pass: the map plus the 1-based line numbers
for which a malformed-line warning has been printed to stderr, in order. -/
structure BuildState where
  hashmap : HMap
  warnings : List Nat
deriving DecidableEq, Repr

/-- The row-processing loop.  `lineNum` is the number of the previously
read line (`line_num` in the source, initially 1 for the header). -/
def buildAuxRows (headers : List String) (p a r : Nat) :
    Nat → HMap → List (List String) → BuildState
  | _, hm, [] => ⟨hm, []⟩
  | lineNum, hm, row :: rest =>
    if row.length ≠ headers.length then
      let st := buildAuxRows headers p a r (lineNum + 1) hm rest
      ⟨st.hashmap, (lineNum + 1) :: st.warnings⟩
    else
      buildAuxRows headers p a r (lineNum + 1) (hmInsert hm (make_key row p a r) row) rest

/-- Index-building pass over pre-split rows, starting from the empty map
with the header as line 1. -/
def buildRows (headers : List String) (p a r : Nat) (rows : List (List String)) : BuildState :=
  buildAuxRows headers p a r 1 [] rows

/-- Index-building pass over the data lines of the file. -/
def buildIndex (headers : List String) (p a r : Nat) (dataLines : List String) : BuildState :=
  buildRows headers p a r (dataLines.map split_csv_row)

/-! ## Query and whole-program result -/

/-- The fixed stderr message of the missing-column failure. -/
def missingColumnMessage : String :=
  "Missing required columns (package, architecture, release)"

/-- Stdout line reporting the entry count. -/
def countLine (n : Nat) : String :=
  "✅ Loaded " ++ toString n ++ " unique entries."

/-- The lookup block at the end of `main`: find the key; print either the
found line (every column followed by `\x22 | \x22`) or the not-found line.
Returns the printed line together with the map, which the lookup leaves
untouched (`find` is const). -/
def queryService (hashmap : HMap) (key : String) : String × HMap :=
  match hmFind hashmap key with
  | some row => ("🔍 Found: " ++ String.join (row.map (fun col => col ++ " | ")), hashmap)
  | none => ("❌ Not found: " ++ key, hashmap)

/-- The composite key of the hard-coded example lookup. -/
def exampleQueryKey : String := "openssl" ++ "|" ++ "amd64" ++ "|" ++ "22.04"

/-- Observable outcome of a run of `main` on an opened file: process exit
code, stdout lines, stderr lines, and the final contents of the map
(empty when the run fails before the map is filled). -/
structure RunResult where
  exitCode : Nat
  stdoutLines : List String
  stderrLines : List String
  index : HMap
deriving DecidableEq, Repr

/-- Stderr line for a skipped malformed line. -/
def warningLine (lineNum : Nat) : String :=
  "Warning: Skipping malformed line " ++ toString lineNum

/-- `main` after a successful file open, on the lines of the file.  An
empty file leaves `line` at its default value `""` when the first
`std::getline` fails, and the data loop reads the remaining lines. -/
def runMain (lines : List String) : RunResult :=
  let headers := split_csv_row (lines.headD "")
  let resolved := resolveColumns headers
  let package_idx := resolved.1
  let arch_idx := resolved.2.1
  let release_idx := resolved.2.2
  if package_idx = npos ∨ arch_idx = npos ∨ release_idx = npos then
    ⟨1, [], [missingColumnMessage], []⟩
  else
    let st := buildIndex headers package_idx arch_idx release_idx lines.tail
    let q := queryService st.hashmap exampleQueryKey
    ⟨0, [countLine st.hashmap.length, q.1], st.warnings.map warningLine, st.hashmap⟩

/-! ## Header-resolution lemmas -/

/-- Single-name version of the header scan, used to decompose
`scanHeaders` name by name. -/
def lastIdxAux (name : String) : List String → Nat → Nat → Nat
  | [], _, acc => acc
  | h :: t, i, acc => lastIdxAux name t (i + 1) (if h = name then i else acc)

/-- Position of the last occurrence of `name` in the list, if any. -/
def lastOccRel (name : String) : List String → Option Nat
  | [] => none
  | h :: t =>
    match lastOccRel name t with
    | some j => some (j + 1)
    | none => if h = name then some 0 else none

/-- Resolved index of a single name: the last occurrence, `npos` if the
name is absent. -/
def resolvedIdx (name : String) (headers : List String) : Nat :=
  match lastOccRel name headers with
  | some j => j
  | none => npos

/-- The last row of `rows` that is well-formed (field count equal to the
header's) and whose composite key is `k`, if any. -/
def lastWfRow (headers : List String) (p a r : Nat) (k : String) :
    List (List String) → Option (List String)
  | [] => none
  | row :: rest =>
    match lastWfRow headers p a r k rest with
    | some v => some v
    | none =>
      if row.length = headers.length ∧ make_key row p a r = k then some row else none

/-- Composite keys of the well-formed rows, in order, duplicates kept. -/
def wfKeys (headers : List String) (p a r : Nat) (rows : List (List String)) : List String :=
  (rows.filter (fun row => row.length = headers.length)).map
    (fun row => make_key row p a r)

/-! ## String containment (used to express "the condition identifies the
missing names") -/

/-- Boolean test for `pat` occurring contiguously inside a character
list. -/
def listInfixB (pat : List Char) : List Char → Bool
  | [] => pat.isEmpty
  | c :: cs => pat.isPrefixOf (c :: cs) || listInfixB pat cs

/-- `name` occurs contiguously inside `msg`. -/
def mentions (msg name : String) : Bool := listInfixB name.data msg.data

/-! ## Claim C6: permutation of column positions -/

/-- Apply a permutation of the `n` column positions to a field sequence:
position `i` of the result holds the field from position `σ i`.  A
sequence whose length is not `n` (a malformed row) is left unchanged. -/
def applyPerm (n : Nat) (σ : Equiv.Perm (Fin n)) (l : List String) : List String :=
  if h : l.length = n then List.ofFn (fun i => l.get (Fin.cast h.symm (σ i))) else l

/-- Concrete permutation of three columns used by the C6 witness. -/
def sigmaSwap02 : Equiv.Perm (Fin 3) := Equiv.swap 0 2

/-- Concrete permutation of four columns used by the C6 counterexample. -/
def sigmaSwap03 : Equiv.Perm (Fin 4) := Equiv.swap 0 3

theorem length_dropWhile_notComma_le (l : List Char) :
    (List.dropWhile notComma l).length ≤ l.length := by
  have happ := List.takeWhile_append_dropWhile notComma l
  have h3 : (List.takeWhile notComma l).length + (List.dropWhile notComma l).length
      = l.length := by
    rw [← List.length_append, happ]
  omega

theorem splitCharsFuel_congr (f1 : Nat) :
    ∀ (f2 : Nat) (l : List Char), l.length < f1 → l.length < f2 →
      splitCharsFuel f1 l = splitCharsFuel f2 l := by
  induction f1 with
  | zero => intro f2 l h1 _; omega
  | succ g ihg =>
    intro f2 l h1 h2
    cases f2 with
    | zero => omega
    | succ k =>
      simp only [splitCharsFuel]
      by_cases hl : l = []
      · simp [hl]
      · simp only [hl, if_false]
        by_cases hr : List.dropWhile notComma l = []
        · simp [hr]
        · simp only [hr, if_false]
          have hlen := length_dropWhile_notComma_le l
          have hpos : 0 < (List.dropWhile notComma l).length :=
            List.length_pos.mpr hr
          have hlpos : 0 < l.length := List.length_pos.mpr hl
          have htl := List.length_tail (List.dropWhile notComma l)
          rw [ihg k (List.dropWhile notComma l).tail (by omega) (by omega)]

theorem splitChars_nil : splitChars [] = [] := rfl

/-- One unfolding of the splitting loop, fuel eliminated. -/
theorem splitChars_step (l : List Char) (hl : l ≠ []) :
    splitChars l =
      if List.dropWhile notComma l = [] then [l.takeWhile notComma]
      else l.takeWhile notComma :: splitChars (List.dropWhile notComma l).tail := by
  show splitCharsFuel (l.length + 1) l = _
  simp only [splitCharsFuel, hl, if_false]
  by_cases hr : List.dropWhile notComma l = []
  · simp [hr]
  · simp only [hr, if_false, List.cons.injEq, true_and]
    have hlen := length_dropWhile_notComma_le l
    have hpos : 0 < (List.dropWhile notComma l).length :=
      List.length_pos.mpr hr
    have hlpos : 0 < l.length := List.length_pos.mpr hl
    have htl := List.length_tail (List.dropWhile notComma l)
    exact splitCharsFuel_congr l.length _ _ (by omega) (by omega)

theorem splitChars_cons_comma (cs : List Char) :
    splitChars (',' :: cs) = [] :: splitChars cs := by
  rw [splitChars_step (',' :: cs) (by simp)]
  simp [List.takeWhile, List.dropWhile, notComma]

theorem splitChars_cons_ne (c : Char) (cs : List Char) (hc : c ≠ ',') :
    splitChars (c :: cs) =
      match splitChars cs with
      | [] => [[c]]
      | s :: ss => (c :: s) :: ss := by
  rw [splitChars_step (c :: cs) (by simp)]
  have htw : List.takeWhile notComma (c :: cs)
      = c :: List.takeWhile notComma cs := by
    simp [List.takeWhile, notComma, hc]
  have hdw : List.dropWhile notComma (c :: cs)
      = List.dropWhile notComma cs := by
    simp [List.dropWhile, notComma, hc]
  rw [htw, hdw]
  by_cases h2 : List.dropWhile notComma cs = []
  · have hself : List.takeWhile notComma cs = cs := by
      have := List.takeWhile_append_dropWhile notComma cs
      rw [h2, List.append_nil] at this
      exact this
    have hsplit : splitChars cs = if cs = [] then [] else [cs] := by
      by_cases hcs : cs = []
      · simp [hcs, splitChars_nil]
      · rw [splitChars_step cs hcs]
        simp [hcs, h2, hself]
    by_cases hcs : cs = []
    · subst hcs
      simp [splitChars_nil, List.dropWhile, List.takeWhile]
    · rw [hsplit]
      simp [hcs, h2, hself]
  · have hcs : cs ≠ [] := by
      intro hh
      rw [hh] at h2
      simp [List.dropWhile] at h2
    have hsplit : splitChars cs =
        List.takeWhile notComma cs :: splitChars (List.dropWhile notComma cs).tail := by
      rw [splitChars_step cs hcs]
      simp [h2]
    rw [hsplit]
    simp [h2]

theorem segmentsAux_ne_nil (l : List Char) : segmentsAux l ≠ [] := by
  cases l with
  | nil => simp [segmentsAux]
  | cons c cs =>
    simp only [segmentsAux]
    by_cases hc : c = ','
    · simp [hc]
    · simp only [hc, if_false]
      rcases h : segmentsAux cs with _ | ⟨s, ss⟩ <;> simp

theorem segmentsAux_cons_comma (cs : List Char) :
    segmentsAux (',' :: cs) = [] :: segmentsAux cs := by
  simp [segmentsAux]

theorem segmentsAux_cons_ne (c : Char) (cs : List Char) (hc : c ≠ ',') :
    segmentsAux (c :: cs) =
      match segmentsAux cs with
      | [] => [[c]]
      | s :: ss => (c :: s) :: ss := by
  simp [segmentsAux, hc]

/-- Core comparison between the code's splitter and the spec's segment
sequence: the code keeps all leading and inner empty segments but drops the
final segment exactly when that final segment is empty (a line ending in
`','`, or the empty line). -/
theorem splitChars_eq_segments (l : List Char) :
    splitChars l =
      if (segmentsAux l).getLast? = some [] then (segmentsAux l).dropLast
      else segmentsAux l := by
  induction l with
  | nil => simp [splitChars_nil, segmentsAux]
  | cons c cs ih =>
    by_cases hc : c = ','
    · subst hc
      rw [splitChars_cons_comma, segmentsAux_cons_comma, ih]
      rcases h : segmentsAux cs with _ | ⟨s, ss⟩
      · exact absurd h (segmentsAux_ne_nil cs)
      · rw [List.getLast?_cons_cons]
        by_cases hlast : (s :: ss).getLast? = some []
        · simp [hlast, List.dropLast_cons₂]
        · simp [hlast]
    · rw [splitChars_cons_ne c cs hc, segmentsAux_cons_ne c cs hc, ih]
      rcases h : segmentsAux cs with _ | ⟨s, ss⟩
      · exact absurd h (segmentsAux_ne_nil cs)
      · rcases ss with _ | ⟨t, ts⟩
        · by_cases hs : s = []
          · subst hs
            simp
          · simp [List.getLast?_singleton, hs]
        · by_cases hlast : (t :: ts).getLast? = some []
          · simp [List.getLast?_cons_cons, hlast, List.dropLast_cons₂]
          · simp [List.getLast?_cons_cons, hlast]

/-! ## Map lemmas -/

theorem hmFind_hmInsert (m : HMap) (k : String) (v : List String) (k' : String) :
    hmFind (hmInsert m k v) k' = if k = k' then some v else hmFind m k' := by
  induction m with
  | nil => simp [hmInsert, hmFind]
  | cons kv rest ih =>
    obtain ⟨k0, v0⟩ := kv
    by_cases h0 : k0 = k
    · subst h0
      by_cases h1 : k0 = k'
      · simp [hmInsert, hmFind, h1]
      · simp [hmInsert, hmFind, h1]
    · by_cases h1 : k0 = k'
      · subst h1
        have : ¬k = k0 := fun hh => h0 hh.symm
        simp [hmInsert, hmFind, h0, this]
      · simp [hmInsert, hmFind, h0, h1, ih]

theorem hmInsert_keys (m : HMap) (k : String) (v : List String) :
    (hmInsert m k v).map Prod.fst =
      if k ∈ m.map Prod.fst then m.map Prod.fst else m.map Prod.fst ++ [k] := by
  induction m with
  | nil => simp [hmInsert]
  | cons kv rest ih =>
    obtain ⟨k0, v0⟩ := kv
    by_cases h0 : k0 = k
    · subst h0
      simp [hmInsert]
    · have hne : ¬k = k0 := fun hh => h0 hh.symm
      have hl : hmInsert ((k0, v0) :: rest) k v = (k0, v0) :: hmInsert rest k v := by
        simp [hmInsert, h0]
      rw [hl, List.map_cons, List.map_cons, ih]
      by_cases hmem : k ∈ rest.map Prod.fst
      · rw [if_pos hmem, if_pos (List.mem_cons.mpr (Or.inr hmem))]
      · have hnc : k ∉ k0 :: rest.map Prod.fst := by
          intro hc
          rcases List.mem_cons.mp hc with h | h
          · exact hne h
          · exact hmem h
        rw [if_neg hmem, if_neg hnc]
        simp

theorem hmInsert_length (m : HMap) (k : String) (v : List String) :
    (hmInsert m k v).length =
      if k ∈ m.map Prod.fst then m.length else m.length + 1 := by
  have h1 : (hmInsert m k v).length = ((hmInsert m k v).map Prod.fst).length := by
    rw [List.length_map]
  have h2 : m.length = (m.map Prod.fst).length := by rw [List.length_map]
  rw [h1, hmInsert_keys]
  by_cases hmem : k ∈ m.map Prod.fst
  · rw [if_pos hmem, if_pos hmem, ← h2]
  · rw [if_neg hmem, if_neg hmem, List.length_append, ← h2]
    rfl

theorem hmInsert_keys_nodup (m : HMap) (k : String) (v : List String)
    (h : (m.map Prod.fst).Nodup) : ((hmInsert m k v).map Prod.fst).Nodup := by
  rw [hmInsert_keys]
  by_cases hmem : k ∈ m.map Prod.fst
  · simp [hmem, h]
  · simp only [hmem, if_false]
    rw [List.nodup_append]
    refine ⟨h, List.nodup_singleton k, ?_⟩
    intro x hx hk
    rw [List.mem_singleton.mp hk] at hx
    exact hmem hx

theorem hmInsert_keys_toFinset (m : HMap) (k : String) (v : List String) :
    ((hmInsert m k v).map Prod.fst).toFinset = insert k (m.map Prod.fst).toFinset := by
  rw [hmInsert_keys]
  by_cases hmem : k ∈ m.map Prod.fst
  · simp only [hmem, if_true]
    have : k ∈ (m.map Prod.fst).toFinset := List.mem_toFinset.mpr hmem
    rw [Finset.insert_eq_self.mpr this]
  · simp only [hmem, if_false]
    rw [List.toFinset_append, Finset.union_comm, Finset.insert_eq]
    simp

theorem scanHeaders_eq (l : List String) :
    ∀ (i p a r : Nat), scanHeaders l i (p, a, r) =
      (lastIdxAux "package" l i p, lastIdxAux "architecture" l i a,
       lastIdxAux "release" l i r) := by
  induction l with
  | nil => intro i p a r; rfl
  | cons h t ih => intro i p a r; simp [scanHeaders, lastIdxAux, ih]

theorem lastIdxAux_eq (name : String) (l : List String) :
    ∀ (i acc : Nat), lastIdxAux name l i acc =
      match lastOccRel name l with
      | some j => i + j
      | none => acc := by
  induction l with
  | nil => intro i acc; rfl
  | cons h t ih =>
    intro i acc
    simp only [lastIdxAux, lastOccRel, ih]
    rcases ht : lastOccRel name t with _ | j
    · by_cases hh : h = name <;> simp [hh]
    · show i + 1 + j = i + (j + 1)
      omega

theorem resolveColumns_eq (headers : List String) :
    resolveColumns headers =
      (resolvedIdx "package" headers, resolvedIdx "architecture" headers,
       resolvedIdx "release" headers) := by
  rw [resolveColumns, scanHeaders_eq]
  simp only [lastIdxAux_eq, resolvedIdx]
  rcases lastOccRel "package" headers with _ | j <;>
    rcases lastOccRel "architecture" headers with _ | j' <;>
      rcases lastOccRel "release" headers with _ | j'' <;> simp

theorem lastOccRel_eq_none (name : String) (l : List String) :
    lastOccRel name l = none ↔ name ∉ l := by
  induction l with
  | nil => simp [lastOccRel]
  | cons h t ih =>
    simp only [lastOccRel]
    rcases ht : lastOccRel name t with _ | j
    · by_cases hh : h = name
      · simp [hh]
      · simp only [hh, if_false, List.mem_cons, true_iff]
        rw [ht] at ih
        simp only [true_iff] at ih
        intro hmem
        rcases hmem with hmem | hmem
        · exact hh hmem.symm
        · exact ih hmem
    · rw [ht] at ih
      simp only [List.mem_cons]
      constructor
      · intro hh; exact absurd hh (by simp)
      · intro hh
        exfalso
        apply hh
        right
        by_contra hmem
        exact absurd (ih.mpr hmem) (by simp)

theorem lastOccRel_get (name : String) (l : List String) (j : Nat)
    (h : lastOccRel name l = some j) : l.get? j = some name := by
  induction l generalizing j with
  | nil => simp [lastOccRel] at h
  | cons h0 t ih =>
    simp only [lastOccRel] at h
    rcases ht : lastOccRel name t with _ | j'
    · rw [ht] at h
      by_cases hh : h0 = name
      · simp only [hh, if_true, Option.some.injEq] at h
        subst h
        simp [hh]
      · simp [hh] at h
    · rw [ht] at h
      simp only [Option.some.injEq] at h
      subst h
      simpa using ih j' ht

theorem lastOccRel_last (name : String) (l : List String) (j : Nat)
    (h : lastOccRel name l = some j) :
    ∀ k, j < k → l.get? k ≠ some name := by
  induction l generalizing j with
  | nil => simp [lastOccRel] at h
  | cons h0 t ih =>
    simp only [lastOccRel] at h
    intro k hk
    rcases ht : lastOccRel name t with _ | j'
    · rw [ht] at h
      by_cases hh : h0 = name
      · simp only [hh, if_true, Option.some.injEq] at h
        subst h
        rcases k with _ | k'
        · omega
        · simp only [List.get?_cons_succ]
          intro hget
          have : name ∈ t := List.get?_mem hget
          exact absurd ((lastOccRel_eq_none name t).mp ht) (by simp [this])
      · simp [hh] at h
    · rw [ht] at h
      simp only [Option.some.injEq] at h
      subst h
      rcases k with _ | k'
      · omega
      · simp only [List.get?_cons_succ]
        exact ih j' ht k' (by omega)

theorem lastOccRel_lt_length (name : String) (l : List String) (j : Nat)
    (h : lastOccRel name l = some j) : j < l.length := by
  have := lastOccRel_get name l j h
  exact (List.get?_eq_some.mp this).1

theorem lastOccRel_of_mem (name : String) (l : List String) (h : name ∈ l) :
    ∃ j, lastOccRel name l = some j := by
  rcases hl : lastOccRel name l with _ | j
  · exact absurd ((lastOccRel_eq_none name l).mp hl) (by simp [h])
  · exact ⟨j, rfl⟩

theorem lastOccRel_unique (name : String) (l : List String) (q : Nat)
    (hq : l.get? q = some name) (huniq : ∀ j, l.get? j = some name → j = q) :
    lastOccRel name l = some q := by
  have hmem : name ∈ l := List.get?_mem hq
  obtain ⟨j, hj⟩ := lastOccRel_of_mem name l hmem
  rw [hj, huniq j (lastOccRel_get name l j hj)]

theorem resolvedIdx_of_not_mem (name : String) (headers : List String)
    (h : name ∉ headers) : resolvedIdx name headers = npos := by
  rw [resolvedIdx, (lastOccRel_eq_none name headers).mpr h]

theorem resolvedIdx_of_mem (name : String) (headers : List String)
    (h : name ∈ headers) :
    resolvedIdx name headers < headers.length ∧
      headers.get? (resolvedIdx name headers) = some name ∧
      ∀ k, resolvedIdx name headers < k → headers.get? k ≠ some name := by
  obtain ⟨j, hj⟩ := lastOccRel_of_mem name headers h
  rw [resolvedIdx, hj]
  exact ⟨lastOccRel_lt_length name headers j hj, lastOccRel_get name headers j hj,
    lastOccRel_last name headers j hj⟩

/-! ## Build-pass lemmas -/

theorem buildAuxRows_cons_wf (headers : List String) (p a r n : Nat) (hm : HMap)
    (row : List String) (rest : List (List String))
    (hw : row.length = headers.length) :
    buildAuxRows headers p a r n hm (row :: rest)
      = buildAuxRows headers p a r (n + 1) (hmInsert hm (make_key row p a r) row) rest := by
  simp only [buildAuxRows]
  exact if_neg (fun hh => hh hw)

theorem buildAuxRows_cons_bad (headers : List String) (p a r n : Nat) (hm : HMap)
    (row : List String) (rest : List (List String))
    (hw : row.length ≠ headers.length) :
    buildAuxRows headers p a r n hm (row :: rest)
      = ⟨(buildAuxRows headers p a r (n + 1) hm rest).hashmap,
         (n + 1) :: (buildAuxRows headers p a r (n + 1) hm rest).warnings⟩ := by
  simp only [buildAuxRows]
  exact if_pos hw

theorem buildAuxRows_hashmap_lineNum (headers : List String) (p a r : Nat) :
    ∀ (rows : List (List String)) (n n' : Nat) (hm : HMap),
      (buildAuxRows headers p a r n hm rows).hashmap
        = (buildAuxRows headers p a r n' hm rows).hashmap := by
  intro rows
  induction rows with
  | nil => intro n n' hm; rfl
  | cons row rest ih =>
    intro n n' hm
    by_cases hw : row.length = headers.length
    · rw [buildAuxRows_cons_wf headers p a r n hm row rest hw,
        buildAuxRows_cons_wf headers p a r n' hm row rest hw]
      exact ih (n + 1) (n' + 1) _
    · rw [buildAuxRows_cons_bad headers p a r n hm row rest hw,
        buildAuxRows_cons_bad headers p a r n' hm row rest hw]
      exact ih (n + 1) (n' + 1) hm

theorem hmFind_buildAuxRows (headers : List String) (p a r : Nat) (k : String) :
    ∀ (rows : List (List String)) (n : Nat) (hm : HMap),
      hmFind (buildAuxRows headers p a r n hm rows).hashmap k =
        match lastWfRow headers p a r k rows with
        | some v => some v
        | none => hmFind hm k := by
  intro rows
  induction rows with
  | nil => intro n hm; rfl
  | cons row rest ih =>
    intro n hm
    by_cases hw : row.length = headers.length
    · rw [buildAuxRows_cons_wf headers p a r n hm row rest hw,
        ih (n + 1) (hmInsert hm (make_key row p a r) row)]
      simp only [lastWfRow]
      rcases lastWfRow headers p a r k rest with _ | v
      · rw [hmFind_hmInsert]
        by_cases hk : make_key row p a r = k
        · rw [if_pos hk, if_pos ⟨hw, hk⟩]
        · rw [if_neg hk, if_neg (fun hc => hk hc.2)]
      · rfl
    · rw [buildAuxRows_cons_bad headers p a r n hm row rest hw]
      show hmFind (buildAuxRows headers p a r (n + 1) hm rest).hashmap k = _
      rw [ih (n + 1) hm]
      simp only [lastWfRow]
      rcases lastWfRow headers p a r k rest with _ | v
      · rw [if_neg (fun hc => hw hc.1)]
      · rfl

theorem buildAuxRows_warnings (headers : List String) (p a r : Nat) :
    ∀ (rows : List (List String)) (n : Nat) (hm : HMap),
      (buildAuxRows headers p a r n hm rows).warnings =
        ((List.range rows.length).filter
          (fun d => (rows.getD d []).length ≠ headers.length)).map
            (fun d => n + 1 + d) := by
  intro rows
  induction rows with
  | nil => intro n hm; rfl
  | cons row rest ih =>
    intro n hm
    have hrange := List.range_succ_eq_map rest.length
    have hmapfilter :
        ((List.range rest.length).map Nat.succ).filter
            (fun d => decide (((row :: rest).getD d []).length ≠ headers.length))
          = ((List.range rest.length).filter
              (fun d => decide ((rest.getD d []).length ≠ headers.length))).map Nat.succ := by
      rw [List.filter_map]
      have hp : ((fun d => decide (((row :: rest).getD d []).length ≠ headers.length))
            ∘ Nat.succ)
          = fun d => decide ((rest.getD d []).length ≠ headers.length) := by
        funext d
        rfl
      rw [hp]
    have harith : ∀ l : List Nat,
        (l.map Nat.succ).map (fun d => n + 1 + d) = l.map (fun d => n + 1 + 1 + d) := by
      intro l
      rw [List.map_map]
      have hfun : ((fun d => n + 1 + d) ∘ Nat.succ) = fun d : Nat => n + 1 + 1 + d := by
        funext d
        show n + 1 + (d + 1) = n + 1 + 1 + d
        omega
      rw [hfun]
    by_cases hw : row.length = headers.length
    · rw [buildAuxRows_cons_wf headers p a r n hm row rest hw, ih (n + 1) _,
        List.length_cons, hrange,
        List.filter_cons_of_neg (by simp [hw]),
        hmapfilter, harith]
    · rw [buildAuxRows_cons_bad headers p a r n hm row rest hw]
      show (n + 1) :: (buildAuxRows headers p a r (n + 1) hm rest).warnings = _
      rw [ih (n + 1) hm, List.length_cons, hrange,
        List.filter_cons_of_pos (by simp [hw]),
        List.map_cons, hmapfilter, harith]

theorem buildAuxRows_keys (headers : List String) (p a r : Nat) :
    ∀ (rows : List (List String)) (n : Nat) (hm : HMap),
      ((buildAuxRows headers p a r n hm rows).hashmap.map Prod.fst).toFinset
        = (hm.map Prod.fst).toFinset ∪ (wfKeys headers p a r rows).toFinset := by
  intro rows
  induction rows with
  | nil => intro n hm; simp [buildAuxRows, wfKeys]
  | cons row rest ih =>
    intro n hm
    by_cases hw : row.length = headers.length
    · rw [buildAuxRows_cons_wf headers p a r n hm row rest hw,
        ih (n + 1) _, hmInsert_keys_toFinset]
      have hfc : List.filter (fun row : List String => decide (row.length = headers.length))
            (row :: rest)
          = row :: List.filter (fun row : List String =>
              decide (row.length = headers.length)) rest :=
        List.filter_cons_of_pos (by simp [hw])
      have hkcons : wfKeys headers p a r (row :: rest)
          = make_key row p a r :: wfKeys headers p a r rest := by
        simp only [wfKeys]
        rw [hfc, List.map_cons]
      rw [hkcons, List.toFinset_cons, Finset.insert_union, Finset.union_insert]
    · rw [buildAuxRows_cons_bad headers p a r n hm row rest hw]
      show ((buildAuxRows headers p a r (n + 1) hm rest).hashmap.map Prod.fst).toFinset = _
      rw [ih (n + 1) hm]
      have hfc : List.filter (fun row : List String => decide (row.length = headers.length))
            (row :: rest)
          = List.filter (fun row : List String =>
              decide (row.length = headers.length)) rest :=
        List.filter_cons_of_neg (by simp [hw])
      have hkcons : wfKeys headers p a r (row :: rest) = wfKeys headers p a r rest := by
        simp only [wfKeys]
        rw [hfc]
      rw [hkcons]

theorem buildAuxRows_keys_nodup (headers : List String) (p a r : Nat) :
    ∀ (rows : List (List String)) (n : Nat) (hm : HMap),
      (hm.map Prod.fst).Nodup →
        ((buildAuxRows headers p a r n hm rows).hashmap.map Prod.fst).Nodup := by
  intro rows
  induction rows with
  | nil => intro n hm h; exact h
  | cons row rest ih =>
    intro n hm h
    by_cases hw : row.length = headers.length
    · rw [buildAuxRows_cons_wf headers p a r n hm row rest hw]
      exact ih (n + 1) _ (hmInsert_keys_nodup hm _ row h)
    · rw [buildAuxRows_cons_bad headers p a r n hm row rest hw]
      exact ih (n + 1) hm h

theorem buildRows_size (headers : List String) (p a r : Nat)
    (rows : List (List String)) :
    (buildRows headers p a r rows).hashmap.length
      = (wfKeys headers p a r rows).dedup.length := by
  have hnodup : (((buildRows headers p a r rows).hashmap).map Prod.fst).Nodup :=
    buildAuxRows_keys_nodup headers p a r rows 1 [] (by simp)
  have hkeys := buildAuxRows_keys headers p a r rows 1 []
  have hlen : (buildRows headers p a r rows).hashmap.length
      = (((buildRows headers p a r rows).hashmap).map Prod.fst).length := by
    rw [List.length_map]
  rw [hlen, ← List.toFinset_card_of_nodup hnodup]
  show (((buildAuxRows headers p a r 1 [] rows).hashmap).map Prod.fst).toFinset.card = _
  rw [hkeys]
  simp only [List.map_nil, List.toFinset_nil, Finset.empty_union]
  exact List.card_toFinset (wfKeys headers p a r rows)

theorem lastWfRow_append (headers : List String) (p a r : Nat) (k : String)
    (xs : List (List String)) :
    ∀ ys, lastWfRow headers p a r k (xs ++ ys) =
      match lastWfRow headers p a r k ys with
      | some v => some v
      | none => lastWfRow headers p a r k xs := by
  induction xs with
  | nil =>
    intro ys
    simp only [List.nil_append]
    rcases lastWfRow headers p a r k ys with _ | v <;> rfl
  | cons x xs ih =>
    intro ys
    show (match lastWfRow headers p a r k (xs ++ ys) with
      | some v => some v
      | none => if x.length = headers.length ∧ make_key x p a r = k then some x else none) = _
    rw [ih ys]
    rcases lastWfRow headers p a r k ys with _ | v
    · rfl
    · rfl

theorem buildAuxRows_hashmap_drop_bad (headers : List String) (p a r : Nat)
    (bad : List String) (hbad : bad.length ≠ headers.length) :
    ∀ (l₁ l₂ : List (List String)) (n : Nat) (hm : HMap),
      (buildAuxRows headers p a r n hm (l₁ ++ bad :: l₂)).hashmap
        = (buildAuxRows headers p a r n hm (l₁ ++ l₂)).hashmap := by
  intro l₁
  induction l₁ with
  | nil =>
    intro l₂ n hm
    show (buildAuxRows headers p a r n hm (bad :: l₂)).hashmap = _
    rw [buildAuxRows_cons_bad headers p a r n hm bad l₂ hbad]
    exact buildAuxRows_hashmap_lineNum headers p a r l₂ (n + 1) n hm
  | cons x xs ih =>
    intro l₂ n hm
    by_cases hw : x.length = headers.length
    · rw [List.cons_append, List.cons_append,
        buildAuxRows_cons_wf headers p a r n hm x _ hw,
        buildAuxRows_cons_wf headers p a r n hm x _ hw]
      exact ih l₂ (n + 1) _
    · rw [List.cons_append, List.cons_append,
        buildAuxRows_cons_bad headers p a r n hm x _ hw,
        buildAuxRows_cons_bad headers p a r n hm x _ hw]
      exact ih l₂ (n + 1) hm

theorem getD_append_mid (l₁ : List (List String)) (x : List String)
    (l₂ : List (List String)) : (l₁ ++ x :: l₂).getD l₁.length [] = x := by
  rw [List.getD_eq_getElem?_getD, List.getElem?_append_right (Nat.le_refl l₁.length)]
  simp

/-- Unfolding of `runMain` when the three required columns resolve. -/
theorem runMain_valid (lines : List String) (p a r : Nat)
    (hres : resolveColumns (split_csv_row (lines.headD "")) = (p, a, r))
    (hp : p ≠ npos) (ha : a ≠ npos) (hr : r ≠ npos) :
    runMain lines =
      ⟨0,
       [countLine (buildIndex (split_csv_row (lines.headD "")) p a r lines.tail).hashmap.length,
        (queryService (buildIndex (split_csv_row (lines.headD "")) p a r lines.tail).hashmap
          exampleQueryKey).1],
       (buildIndex (split_csv_row (lines.headD "")) p a r lines.tail).warnings.map warningLine,
       (buildIndex (split_csv_row (lines.headD "")) p a r lines.tail).hashmap⟩ := by
  simp only [runMain, hres]
  exact if_neg (by rintro (h | h | h); exacts [hp h, ha h, hr h])

/-- Unfolding of `runMain` when a required column name is absent from the
header: the fixed message goes to stderr and the process exits with 1
before any data row is processed. -/
theorem runMain_missing (lines : List String)
    (h : "package" ∉ split_csv_row (lines.headD "")
      ∨ "architecture" ∉ split_csv_row (lines.headD "")
      ∨ "release" ∉ split_csv_row (lines.headD "")) :
    runMain lines = ⟨1, [], [missingColumnMessage], []⟩ := by
  simp only [runMain, resolveColumns_eq]
  refine if_pos ?_
  rcases h with h | h | h
  · exact Or.inl (resolvedIdx_of_not_mem _ _ h)
  · exact Or.inr (Or.inl (resolvedIdx_of_not_mem _ _ h))
  · exact Or.inr (Or.inr (resolvedIdx_of_not_mem _ _ h))

theorem warningLine_ne_missingColumnMessage (n : Nat) :
    warningLine n ≠ missingColumnMessage := by
  intro hc
  have hhead : (warningLine n).data.head? = (missingColumnMessage).data.head? :=
    congrArg (fun s : String => s.data.head?) hc
  have h1 : (warningLine n).data.head? = some 'W' := rfl
  have h2 : (missingColumnMessage).data.head? = some 'M' := rfl
  rw [h1, h2] at hhead
  simp at hhead

/-! ## Claim C1 -/

/-- C1 counterexample: the Row Splitter does not preserve empty substrings
at the end of the line.  On the empty line it returns the empty sequence
rather than one empty field, and on `"a,"` it returns `["a"]` rather than
`["a", ""]`, so its length is not the number of delimiter-separated
segments at these inputs. -/
theorem C1_counterexample :
    split_csv_row "" = [] ∧ lineSegments "" = [""] ∧
      split_csv_row "" ≠ lineSegments "" ∧
      split_csv_row "a," = ["a"] ∧ lineSegments "a," = ["a", ""] ∧
      (split_csv_row "a,").length ≠ (lineSegments "a,").length := by
  decide

/-- C1 (amended): for every input line, `split_csv_row` returns the
ordered sequence of delimiter-separated segments of the line — preserving
empty substrings between consecutive delimiters and at the start of the
line — except that the final segment is dropped exactly when it is empty:
a line ending in `','` loses its final empty field and the empty line
yields the empty sequence, so the length equals the number of
delimiter-separated segments minus one when the final segment is empty. -/
theorem C1_amended (line : String) :
    split_csv_row line =
      (if (lineSegments line).getLast? = some "" then (lineSegments line).dropLast
       else lineSegments line) ∧
    (split_csv_row line).length =
      (lineSegments line).length -
        (if (lineSegments line).getLast? = some "" then 1 else 0) := by
  have hmain : split_csv_row line =
      (if (lineSegments line).getLast? = some "" then (lineSegments line).dropLast
       else lineSegments line) := by
    rw [split_csv_row, lineSegments, splitChars_eq_segments]
    have hlast : (List.map String.mk (segmentsAux line.data)).getLast?
        = Option.map String.mk (segmentsAux line.data).getLast? :=
      List.getLast?_map String.mk (segmentsAux line.data)
    by_cases hcond : (segmentsAux line.data).getLast? = some []
    · rw [if_pos hcond]
      have hcond' : (List.map String.mk (segmentsAux line.data)).getLast? = some "" := by
        rw [hlast, hcond]
        rfl
      rw [if_pos hcond', List.map_dropLast]
    · rw [if_neg hcond]
      have hcond' : (List.map String.mk (segmentsAux line.data)).getLast? ≠ some "" := by
        rw [hlast]
        intro hc
        rcases hmap : (segmentsAux line.data).getLast? with _ | s
        · rw [hmap] at hc
          exact Option.noConfusion hc
        · rw [hmap] at hc
          have hc2 : some (String.mk s) = some "" := hc
          have hc3 : String.mk s = "" := Option.some.inj hc2
          apply hcond
          rw [hmap]
          have hs : s = [] := congrArg String.data hc3
          rw [hs]
      rw [if_neg hcond']
  refine ⟨hmain, ?_⟩
  rw [hmain]
  by_cases hcond : (lineSegments line).getLast? = some ""
  · rw [if_pos hcond, if_pos hcond, List.length_dropLast]
  · rw [if_neg hcond, if_neg hcond]
    omega

/-! ## Claim C5 -/

/-- C5 counterexample: with header `architecture,release` only `package`
is missing, yet the emitted condition is the fixed message, which mentions
`architecture` (a present name).  The error condition therefore does not
identify which of the required names are absent. -/
theorem C5_counterexample :
    (runMain ["architecture,release"]).exitCode = 1 ∧
      (runMain ["architecture,release"]).stderrLines = [missingColumnMessage] ∧
      "architecture" ∈ split_csv_row "architecture,release" ∧
      mentions missingColumnMessage "architecture" = true ∧
      mentions missingColumnMessage "release" = true := by
  decide

/-- C5 (amended): whenever one or more of the required header names are
absent under case-sensitive exact match, the run fails with exit code 1
and the single fixed stderr message naming the full set of required
columns (`package`, `architecture`, `release`), regardless of which of
them are missing. -/
theorem C5_amended (lines : List String)
    (h : "package" ∉ split_csv_row (lines.headD "")
      ∨ "architecture" ∉ split_csv_row (lines.headD "")
      ∨ "release" ∉ split_csv_row (lines.headD "")) :
    runMain lines = ⟨1, [], [missingColumnMessage], []⟩ ∧
      mentions missingColumnMessage "package" = true ∧
      mentions missingColumnMessage "architecture" = true ∧
      mentions missingColumnMessage "release" = true :=
  ⟨runMain_missing lines h, by decide, by decide, by decide⟩

/-- C5 witness: the amended claim evaluated on the header
`architecture,release`. -/
theorem C5_witness :
    runMain ["architecture,release"] = ⟨1, [], [missingColumnMessage], []⟩ ∧
      mentions missingColumnMessage "package" = true ∧
      mentions missingColumnMessage "architecture" = true ∧
      mentions missingColumnMessage "release" = true :=
  C5_amended ["architecture,release"] (Or.inl (by decide))

/-! ## Claim C7 -/

/-- C7: for every header lacking at least one of `package`,
`architecture`, `release`, the program exits with code 1 before any data
row is processed: nothing is indexed, stdout is empty, and no
malformed-row warning is ever emitted. -/
theorem C7_missing_column_fatal (lines : List String)
    (h : "package" ∉ split_csv_row (lines.headD "")
      ∨ "architecture" ∉ split_csv_row (lines.headD "")
      ∨ "release" ∉ split_csv_row (lines.headD "")) :
    runMain lines = ⟨1, [], [missingColumnMessage], []⟩ ∧
      (runMain lines).index = [] ∧
      (runMain lines).stdoutLines = [] ∧
      ∀ n : Nat, warningLine n ∉ (runMain lines).stderrLines := by
  have hm := runMain_missing lines h
  refine ⟨hm, by rw [hm], by rw [hm], ?_⟩
  intro n
  rw [hm]
  intro hmem
  rcases List.mem_singleton.mp hmem with hc
  exact warningLine_ne_missingColumnMessage n hc

/-- C7 witness: a file whose header lacks `architecture`, with data rows
present that are never processed. -/
theorem C7_witness :
    runMain ["package,release", "a,b", "c"] = ⟨1, [], [missingColumnMessage], []⟩ ∧
      (runMain ["package,release", "a,b", "c"]).index = [] ∧
      (runMain ["package,release", "a,b", "c"]).stdoutLines = [] := by
  have h := C7_missing_column_fatal ["package,release", "a,b", "c"]
    (Or.inr (Or.inl (by decide)))
  exact ⟨h.1, h.2.1, h.2.2.1⟩

/-! ## Claim C8 -/

/-- C8 counterexample: with the stored row `["openssl", "amd64",
"22.04"]`, the found line carries a trailing `" | "` after the final
field, so it is not the fields separated by `" | "` with no extra
separators. -/
theorem C8_counterexample :
    (queryService [("openssl|amd64|22.04", ["openssl", "amd64", "22.04"])]
        "openssl|amd64|22.04").1
      = "🔍 Found: openssl | amd64 | 22.04 | " ∧
    (queryService [("openssl|amd64|22.04", ["openssl", "amd64", "22.04"])]
        "openssl|amd64|22.04").1
      ≠ "🔍 Found: " ++ String.intercalate " | " ["openssl", "amd64", "22.04"] := by
  decide

/-- C8 (amended): a lookup never modifies the index, and its output line
is the found line — every stored field followed by `" | "`, including a
trailing separator after the last — when the key is present, and the
not-found line consisting of a fixed prefix followed by the queried key
when it is absent. -/
theorem C8_amended (m : HMap) (k : String) :
    (queryService m k).2 = m ∧
    (queryService m k).1 =
      (match hmFind m k with
       | some row => "🔍 Found: " ++ String.join (row.map (fun col => col ++ " | "))
       | none => "❌ Not found: " ++ k) := by
  unfold queryService
  rcases hmFind m k with _ | row
  · exact ⟨rfl, rfl⟩
  · exact ⟨rfl, rfl⟩

/-! ## Claim C10 -/

/-- C10: an empty input file (the first `getline` fails and leaves the
line empty) or an empty first line resolves to the empty header sequence,
so the run reports the missing-column error and exits with status 1
without indexing anything. -/
theorem C10_empty_input (lines : List String) (h : lines.headD "" = "") :
    split_csv_row (lines.headD "") = [] ∧
      runMain lines = ⟨1, [], [missingColumnMessage], []⟩ := by
  have hsplit : split_csv_row (lines.headD "") = [] := by
    rw [h]
    rfl
  refine ⟨hsplit, runMain_missing lines ?_⟩
  rw [hsplit]
  exact Or.inl (by simp)

/-- C10 witness: the empty file and the file whose first line is empty. -/
theorem C10_witness :
    (split_csv_row (([] : List String).headD "") = [] ∧
      runMain [] = ⟨1, [], [missingColumnMessage], []⟩) ∧
    (split_csv_row (["", "a,b,c"].headD "") = [] ∧
      runMain ["", "a,b,c"] = ⟨1, [], [missingColumnMessage], []⟩) :=
  ⟨C10_empty_input [] rfl, C10_empty_input ["", "a,b,c"] rfl⟩

theorem lastWfRow_eq_none (headers : List String) (p a r : Nat) (k : String)
    (rows : List (List String))
    (h : ∀ row ∈ rows, row.length = headers.length → make_key row p a r ≠ k) :
    lastWfRow headers p a r k rows = none := by
  induction rows with
  | nil => rfl
  | cons row rest ih =>
    simp only [lastWfRow]
    rw [ih (fun row hr => h row (List.mem_cons_of_mem _ hr))]
    rw [if_neg (fun hc => h row (List.mem_cons_self row rest) hc.1 hc.2)]

/-! ## Claim C2 -/

/-- C2: last-write-wins.  For an input with a valid header containing a
well-formed row `lineA` and, later in file order, a well-formed row
`lineB` whose `package`, `architecture`, `release` fields form the same
triple (and after which no well-formed row rebinds that composite key),
the index after the build pass maps that composite key to exactly the
later row's full field sequence, the run succeeds, and no warning is
emitted for the superseded earlier row. -/
theorem C2_last_write_wins (hl lineA lineB : String) (l₁ l₂ l₃ : List String)
    (p a r : Nat)
    (hres : resolveColumns (split_csv_row hl) = (p, a, r))
    (hp : p ≠ npos) (ha : a ≠ npos) (hr : r ≠ npos)
    (hwfA : (split_csv_row lineA).length = (split_csv_row hl).length)
    (hwfB : (split_csv_row lineB).length = (split_csv_row hl).length)
    (htP : (split_csv_row lineA).getD p "" = (split_csv_row lineB).getD p "")
    (htA : (split_csv_row lineA).getD a "" = (split_csv_row lineB).getD a "")
    (htR : (split_csv_row lineA).getD r "" = (split_csv_row lineB).getD r "")
    (hlater : ∀ line ∈ l₃, (split_csv_row line).length = (split_csv_row hl).length →
      make_key (split_csv_row line) p a r ≠ make_key (split_csv_row lineB) p a r) :
    make_key (split_csv_row lineA) p a r = make_key (split_csv_row lineB) p a r ∧
    hmFind (runMain (hl :: (l₁ ++ lineA :: (l₂ ++ lineB :: l₃)))).index
        (make_key (split_csv_row lineB) p a r) = some (split_csv_row lineB) ∧
    (runMain (hl :: (l₁ ++ lineA :: (l₂ ++ lineB :: l₃)))).exitCode = 0 ∧
    (l₁.length + 2) ∉
      (buildIndex (split_csv_row hl) p a r (l₁ ++ lineA :: (l₂ ++ lineB :: l₃))).warnings := by
  have hkeyeq : make_key (split_csv_row lineA) p a r
      = make_key (split_csv_row lineB) p a r := by
    unfold make_key
    rw [htP, htA, htR]
  have hrm := runMain_valid (hl :: (l₁ ++ lineA :: (l₂ ++ lineB :: l₃))) p a r hres hp ha hr
  have hfind : hmFind (buildIndex (split_csv_row hl) p a r
      (l₁ ++ lineA :: (l₂ ++ lineB :: l₃))).hashmap
      (make_key (split_csv_row lineB) p a r) = some (split_csv_row lineB) := by
    show hmFind ((buildAuxRows (split_csv_row hl) p a r 1 []
      ((l₁ ++ lineA :: (l₂ ++ lineB :: l₃)).map split_csv_row)).hashmap)
      (make_key (split_csv_row lineB) p a r) = some (split_csv_row lineB)
    rw [hmFind_buildAuxRows, List.map_append, List.map_cons, List.map_append, List.map_cons]
    have hZ : lastWfRow (split_csv_row hl) p a r (make_key (split_csv_row lineB) p a r)
        (l₃.map split_csv_row) = none := by
      apply lastWfRow_eq_none
      intro row hrow hlen
      obtain ⟨line, hline, hrow'⟩ := List.mem_map.mp hrow
      rw [← hrow']
      rw [← hrow'] at hlen
      exact hlater line hline hlen
    have hBZ : lastWfRow (split_csv_row hl) p a r (make_key (split_csv_row lineB) p a r)
        (split_csv_row lineB :: l₃.map split_csv_row) = some (split_csv_row lineB) := by
      simp only [lastWfRow]
      rw [hZ]
      exact if_pos ⟨hwfB, trivial⟩
    have hYBZ : lastWfRow (split_csv_row hl) p a r (make_key (split_csv_row lineB) p a r)
        (l₂.map split_csv_row ++ (split_csv_row lineB :: l₃.map split_csv_row))
        = some (split_csv_row lineB) := by
      rw [lastWfRow_append, hBZ]
    have hABZ : lastWfRow (split_csv_row hl) p a r (make_key (split_csv_row lineB) p a r)
        (split_csv_row lineA
          :: (l₂.map split_csv_row ++ (split_csv_row lineB :: l₃.map split_csv_row)))
        = some (split_csv_row lineB) := by
      simp only [lastWfRow]
      rw [hYBZ]
    rw [lastWfRow_append, hABZ]
  refine ⟨hkeyeq, ?_, ?_, ?_⟩
  · rw [hrm]
    exact hfind
  · rw [hrm]
  · show (l₁.length + 2) ∉ (buildAuxRows (split_csv_row hl) p a r 1 []
      ((l₁ ++ lineA :: (l₂ ++ lineB :: l₃)).map split_csv_row)).warnings
    rw [buildAuxRows_warnings]
    intro hmem
    obtain ⟨d, hdmem, hdeq⟩ := List.mem_map.mp hmem
    have hdeq' : 1 + 1 + d = l₁.length + 2 := hdeq
    have hd : d = l₁.length := by omega
    subst hd
    obtain ⟨hdr, hpred⟩ := List.mem_filter.mp hdmem
    have hgd : ((l₁ ++ lineA :: (l₂ ++ lineB :: l₃)).map split_csv_row).getD l₁.length []
        = split_csv_row lineA := by
      rw [List.map_append, List.map_cons]
      have hlen : l₁.length = (l₁.map split_csv_row).length := by
        rw [List.length_map]
      rw [hlen]
      exact getD_append_mid (l₁.map split_csv_row) _ _
    rw [hgd] at hpred
    exact of_decide_eq_true hpred hwfA

/-- C2 witness: two well-formed rows with the identical triple
`(foo, amd64, 20.04)` at lines 2 and 3; the index holds line 3's row. -/
theorem C2_witness :
    make_key (split_csv_row "foo,amd64,20.04,1") 0 1 2
        = make_key (split_csv_row "foo,amd64,20.04,2") 0 1 2 ∧
    hmFind (runMain ("package,architecture,release,extra"
        :: ([] ++ "foo,amd64,20.04,1" :: ([] ++ "foo,amd64,20.04,2" :: [])))).index
        (make_key (split_csv_row "foo,amd64,20.04,2") 0 1 2)
      = some (split_csv_row "foo,amd64,20.04,2") := by
  have h := C2_last_write_wins "package,architecture,release,extra"
    "foo,amd64,20.04,1" "foo,amd64,20.04,2" [] [] [] 0 1 2
    (by decide) (by decide) (by decide) (by decide)
    (by decide) (by decide) (by decide) (by decide) (by decide)
    (fun line hline => absurd hline (List.not_mem_nil line))
  exact ⟨h.1, h.2.1⟩

/-! ## Claim C3 -/

/-- C3: for every input with a valid header, the entry count reported by
the count line equals the number of distinct composite keys among exactly
those data rows whose field count equals the header's. -/
theorem C3_entry_count (hl : String) (dataLines : List String) (p a r : Nat)
    (hres : resolveColumns (split_csv_row hl) = (p, a, r))
    (hp : p ≠ npos) (ha : a ≠ npos) (hr : r ≠ npos) :
    (runMain (hl :: dataLines)).stdoutLines.head?
      = some (countLine (wfKeys (split_csv_row hl) p a r
          (dataLines.map split_csv_row)).dedup.length) := by
  have hrm := runMain_valid (hl :: dataLines) p a r hres hp ha hr
  rw [hrm]
  show some (countLine
    (buildRows (split_csv_row hl) p a r (dataLines.map split_csv_row)).hashmap.length) = _
  rw [buildRows_size]

/-- C3 witness: four data rows, one malformed, two sharing a key: the
count line reports 2. -/
theorem C3_witness :
    (runMain ["package,architecture,release", "a,b,c", "a,b,c", "x,y",
        "d,e,f"]).stdoutLines.head? = some (countLine 2) := by
  have h := C3_entry_count "package,architecture,release"
    ["a,b,c", "a,b,c", "x,y", "d,e,f"] 0 1 2 (by decide) (by decide) (by decide) (by decide)
  rw [h]
  decide

/-! ## Claim C4 -/

/-- C4: a data row whose field count differs from the header's contributes
zero entries to the index (removing it leaves the final map unchanged),
produces exactly one warning naming its 1-based line number (the header
being line 1), and never aborts the pass: the run still completes with
exit code 0 and its stderr is exactly the warnings of the build pass. -/
theorem C4_malformed_skip (hl bad : String) (l₁ l₂ : List String) (p a r : Nat)
    (hres : resolveColumns (split_csv_row hl) = (p, a, r))
    (hp : p ≠ npos) (ha : a ≠ npos) (hr : r ≠ npos)
    (hbad : (split_csv_row bad).length ≠ (split_csv_row hl).length) :
    (buildIndex (split_csv_row hl) p a r (l₁ ++ bad :: l₂)).hashmap
      = (buildIndex (split_csv_row hl) p a r (l₁ ++ l₂)).hashmap ∧
    ((buildIndex (split_csv_row hl) p a r (l₁ ++ bad :: l₂)).warnings).count
        (l₁.length + 2) = 1 ∧
    (runMain (hl :: (l₁ ++ bad :: l₂))).exitCode = 0 ∧
    (runMain (hl :: (l₁ ++ bad :: l₂))).stderrLines
      = ((buildIndex (split_csv_row hl) p a r (l₁ ++ bad :: l₂)).warnings).map warningLine ∧
    warningLine (l₁.length + 2) ∈ (runMain (hl :: (l₁ ++ bad :: l₂))).stderrLines := by
  have hrm := runMain_valid (hl :: (l₁ ++ bad :: l₂)) p a r hres hp ha hr
  have hchar : (buildIndex (split_csv_row hl) p a r (l₁ ++ bad :: l₂)).warnings
      = ((List.range ((l₁ ++ bad :: l₂).map split_csv_row).length).filter
          (fun d => (((l₁ ++ bad :: l₂).map split_csv_row).getD d []).length
            ≠ (split_csv_row hl).length)).map (fun d => 1 + 1 + d) :=
    buildAuxRows_warnings (split_csv_row hl) p a r
      ((l₁ ++ bad :: l₂).map split_csv_row) 1 []
  have hgd : ((l₁ ++ bad :: l₂).map split_csv_row).getD l₁.length []
      = split_csv_row bad := by
    rw [List.map_append, List.map_cons]
    have hlen : l₁.length = (l₁.map split_csv_row).length := by
      rw [List.length_map]
    rw [hlen]
    exact getD_append_mid (l₁.map split_csv_row) _ _
  have hmemw : (l₁.length + 2)
      ∈ (buildIndex (split_csv_row hl) p a r (l₁ ++ bad :: l₂)).warnings := by
    rw [hchar]
    refine List.mem_map.mpr ⟨l₁.length, List.mem_filter.mpr ⟨?_, ?_⟩,
      by show 1 + 1 + l₁.length = l₁.length + 2; omega⟩
    · refine List.mem_range.mpr ?_
      rw [List.length_map, List.length_append, List.length_cons]
      omega
    · rw [hgd]
      exact decide_eq_true hbad
  have hnodupw : ((buildIndex (split_csv_row hl) p a r (l₁ ++ bad :: l₂)).warnings).Nodup := by
    rw [hchar]
    refine List.Nodup.map ?_ (List.Nodup.filter _ (List.nodup_range _))
    intro x y hxy
    have hxy' : 1 + 1 + x = 1 + 1 + y := hxy
    omega
  refine ⟨?_, ?_, ?_, ?_, ?_⟩
  · show (buildAuxRows (split_csv_row hl) p a r 1 []
        ((l₁ ++ bad :: l₂).map split_csv_row)).hashmap
      = (buildAuxRows (split_csv_row hl) p a r 1 [] ((l₁ ++ l₂).map split_csv_row)).hashmap
    rw [List.map_append, List.map_cons, List.map_append]
    exact buildAuxRows_hashmap_drop_bad (split_csv_row hl) p a r (split_csv_row bad)
      hbad (l₁.map split_csv_row) (l₂.map split_csv_row) 1 []
  · exact List.count_eq_one_of_mem hnodupw hmemw
  · rw [hrm]
  · rw [hrm]
    rfl
  · rw [hrm]
    exact List.mem_map_of_mem warningLine hmemw

/-- C4 witness: data row `x,y` at line 3 under a three-column header:
exactly one warning names line 3 and the map is as if the row were
absent. -/
theorem C4_witness :
    (buildIndex (split_csv_row "package,architecture,release") 0 1 2
        (["a,b,c"] ++ "x,y" :: [])).hashmap
      = (buildIndex (split_csv_row "package,architecture,release") 0 1 2
          (["a,b,c"] ++ [])).hashmap ∧
    ((buildIndex (split_csv_row "package,architecture,release") 0 1 2
        (["a,b,c"] ++ "x,y" :: [])).warnings).count (["a,b,c"].length + 2) = 1 ∧
    warningLine (["a,b,c"].length + 2)
      ∈ (runMain ("package,architecture,release" :: (["a,b,c"] ++ "x,y" :: []))).stderrLines := by
  have h := C4_malformed_skip "package,architecture,release" "x,y" ["a,b,c"] []
    0 1 2 (by decide) (by decide) (by decide) (by decide) (by decide)
  exact ⟨h.1, h.2.1, h.2.2.2.2⟩

/-! ## Claim C9 -/

/-- C9: the resolver keeps the position of the last occurrence of each
required name (so with duplicated required columns the rightmost one
wins), and the build pass uses exactly those positions to construct the
key of every well-formed data row. -/
theorem C9_last_occurrence_wins (headers : List String) (p a r : Nat)
    (hres : resolveColumns headers = (p, a, r)) :
    ("package" ∈ headers → headers.get? p = some "package"
      ∧ ∀ k, p < k → headers.get? k ≠ some "package") ∧
    ("architecture" ∈ headers → headers.get? a = some "architecture"
      ∧ ∀ k, a < k → headers.get? k ≠ some "architecture") ∧
    ("release" ∈ headers → headers.get? r = some "release"
      ∧ ∀ k, r < k → headers.get? k ≠ some "release") ∧
    ∀ row : List String, row.length = headers.length →
      (buildRows headers p a r [row]).hashmap = [(make_key row p a r, row)] := by
  rw [resolveColumns_eq] at hres
  have hp : resolvedIdx "package" headers = p := congrArg Prod.fst hres
  have ha : resolvedIdx "architecture" headers = a :=
    congrArg (fun t : Nat × Nat × Nat => t.2.1) hres
  have hr : resolvedIdx "release" headers = r :=
    congrArg (fun t : Nat × Nat × Nat => t.2.2) hres
  subst hp
  subst ha
  subst hr
  refine ⟨?_, ?_, ?_, ?_⟩
  · intro hmem
    obtain ⟨_, hget, hlast⟩ := resolvedIdx_of_mem "package" headers hmem
    exact ⟨hget, hlast⟩
  · intro hmem
    obtain ⟨_, hget, hlast⟩ := resolvedIdx_of_mem "architecture" headers hmem
    exact ⟨hget, hlast⟩
  · intro hmem
    obtain ⟨_, hget, hlast⟩ := resolvedIdx_of_mem "release" headers hmem
    exact ⟨hget, hlast⟩
  · intro row hlen
    show (buildAuxRows headers _ _ _ 1 [] [row]).hashmap = _
    rw [buildAuxRows_cons_wf headers _ _ _ 1 [] row [] hlen]
    rfl

/-- C9 witness: with `package` duplicated at positions 0 and 3, the
resolver picks position 3 and the key of a data row uses field 3. -/
theorem C9_witness :
    ["package", "architecture", "release", "package"].get? 3 = some "package" ∧
    (buildRows ["package", "architecture", "release", "package"] 3 1 2
        [["a", "b", "c", "d"]]).hashmap = [("d|b|c", ["a", "b", "c", "d"])] := by
  have h := C9_last_occurrence_wins ["package", "architecture", "release", "package"]
    3 1 2 (by decide)
  refine ⟨(h.1 (by decide)).1, ?_⟩
  have h4 := h.2.2.2 ["a", "b", "c", "d"] (by decide)
  rw [h4]
  decide

theorem applyPerm_length (n : Nat) (σ : Equiv.Perm (Fin n)) (l : List String) :
    (applyPerm n σ l).length = l.length := by
  unfold applyPerm
  by_cases h : l.length = n
  · rw [dif_pos h, List.length_ofFn, h]
  · rw [dif_neg h]

theorem applyPerm_get (n : Nat) (σ : Equiv.Perm (Fin n)) (l : List String)
    (h : l.length = n) (i : Fin n) :
    (applyPerm n σ l).get? i.val = l.get? (σ i).val := by
  unfold applyPerm
  rw [dif_pos h]
  have hlt : (σ i).val < l.length := by
    rw [h]
    exact (σ i).isLt
  have hlt1 : i.val < (List.ofFn (fun j => l.get (Fin.cast h.symm (σ j)))).length := by
    rw [List.length_ofFn]
    exact i.isLt
  rw [List.get?_eq_get hlt1, List.get?_eq_get hlt, List.get_ofFn]
  rfl

theorem applyPerm_getD_symm (n : Nat) (σ : Equiv.Perm (Fin n)) (l : List String)
    (h : l.length = n) (q : Nat) (hq : q < n) :
    (applyPerm n σ l).getD ((σ.symm ⟨q, hq⟩).val) "" = l.getD q "" := by
  have hg := applyPerm_get n σ l h (σ.symm ⟨q, hq⟩)
  rw [List.getD_eq_getElem?_getD, List.getD_eq_getElem?_getD,
    ← List.get?_eq_getElem?, ← List.get?_eq_getElem?, hg, Equiv.apply_symm_apply]

theorem lastOccRel_applyPerm_unique (headers : List String)
    (σ : Equiv.Perm (Fin headers.length)) (name : String) (q : Nat)
    (hql : q < headers.length) (hq : headers.get? q = some name)
    (huniq : ∀ j, headers.get? j = some name → j = q) :
    resolvedIdx name (applyPerm headers.length σ headers)
      = (σ.symm ⟨q, hql⟩).val := by
  have hget : (applyPerm headers.length σ headers).get? ((σ.symm ⟨q, hql⟩).val)
      = some name := by
    rw [applyPerm_get headers.length σ headers rfl (σ.symm ⟨q, hql⟩),
      Equiv.apply_symm_apply]
    exact hq
  have huni : ∀ j, (applyPerm headers.length σ headers).get? j = some name
      → j = (σ.symm ⟨q, hql⟩).val := by
    intro j hj
    by_cases hjlt : j < headers.length
    · have hg := applyPerm_get headers.length σ headers rfl ⟨j, hjlt⟩
      rw [hg] at hj
      have hσ : (σ ⟨j, hjlt⟩).val = q := huniq _ hj
      have hσ2 : σ ⟨j, hjlt⟩ = ⟨q, hql⟩ := Fin.ext hσ
      have hσ3 : (⟨j, hjlt⟩ : Fin headers.length) = σ.symm ⟨q, hql⟩ := by
        rw [← hσ2, Equiv.symm_apply_apply]
      exact congrArg Fin.val hσ3
    · exfalso
      have hnone : (applyPerm headers.length σ headers).get? j = none := by
        apply List.get?_len_le
        rw [applyPerm_length]
        omega
      rw [hnone] at hj
      exact Option.noConfusion hj
  have hlo := lastOccRel_unique name (applyPerm headers.length σ headers) _ hget huni
  unfold resolvedIdx
  rw [hlo]

theorem get?_eq_of_count_one (l : List String) (name : String)
    (hc : l.count name = 1) :
    ∀ i j, l.get? i = some name → l.get? j = some name → i = j := by
  induction l with
  | nil =>
    intro i j hi _
    rw [List.get?_nil] at hi
    exact Option.noConfusion hi
  | cons x t ih =>
    intro i j hi hj
    rw [List.count_cons] at hc
    by_cases hx : x = name
    · have hbeq : (x == name) = true := beq_iff_eq.mpr hx
      rw [hbeq, if_pos rfl] at hc
      have hct : t.count name = 0 := by omega
      have hnot : name ∉ t := List.count_eq_zero.mp hct
      rcases i with _ | i'
      · rcases j with _ | j'
        · rfl
        · exfalso
          rw [List.get?_cons_succ] at hj
          exact hnot (List.get?_mem hj)
      · exfalso
        rw [List.get?_cons_succ] at hi
        exact hnot (List.get?_mem hi)
    · have hbeq : (x == name) = false := by
        rw [beq_eq_false_iff_ne]
        exact hx
      rw [hbeq] at hc
      simp only [Bool.false_eq_true, if_false] at hc
      have hct : t.count name = 1 := by omega
      rcases i with _ | i'
      · exfalso
        rw [List.get?_cons_zero] at hi
        exact hx (Option.some.inj hi)
      · rcases j with _ | j'
        · exfalso
          rw [List.get?_cons_zero] at hj
          exact hx (Option.some.inj hj)
        · rw [List.get?_cons_succ] at hi
          rw [List.get?_cons_succ] at hj
          exact congrArg Nat.succ (ih hct i' j' hi hj)

theorem buildAuxRows_perm (headers : List String)
    (σ : Equiv.Perm (Fin headers.length)) (p a r p' a' r' : Nat)
    (hkey : ∀ row : List String, row.length = headers.length →
      make_key (applyPerm headers.length σ row) p' a' r' = make_key row p a r) :
    ∀ (rows : List (List String)) (ln : Nat) (hm hm' : HMap),
      (∀ k, hmFind hm' k = Option.map (applyPerm headers.length σ) (hmFind hm k)) →
      ∀ k, hmFind (buildAuxRows (applyPerm headers.length σ headers) p' a' r' ln hm'
              (rows.map (applyPerm headers.length σ))).hashmap k
        = Option.map (applyPerm headers.length σ)
            (hmFind (buildAuxRows headers p a r ln hm rows).hashmap k) := by
  intro rows
  induction rows with
  | nil =>
    intro ln hm hm' hrel k
    exact hrel k
  | cons row rest ih =>
    intro ln hm hm' hrel k
    rw [List.map_cons]
    by_cases hw : row.length = headers.length
    · have hw' : (applyPerm headers.length σ row).length
          = (applyPerm headers.length σ headers).length := by
        rw [applyPerm_length, applyPerm_length, hw]
      rw [buildAuxRows_cons_wf _ p' a' r' ln hm' _ _ hw',
        buildAuxRows_cons_wf headers p a r ln hm row rest hw]
      apply ih
      intro k0
      rw [hkey row hw, hmFind_hmInsert, hmFind_hmInsert]
      by_cases hk : make_key row p a r = k0
      · rw [if_pos hk, if_pos hk]
        rfl
      · rw [if_neg hk, if_neg hk]
        exact hrel k0
    · have hw' : (applyPerm headers.length σ row).length
          ≠ (applyPerm headers.length σ headers).length := by
        rw [applyPerm_length, applyPerm_length]
        exact fun hc => hw hc
      rw [buildAuxRows_cons_bad _ p' a' r' ln hm' _ _ hw',
        buildAuxRows_cons_bad headers p a r ln hm row rest hw]
      exact ih (ln + 1) hm hm' hrel k

/-- C6 counterexample: with the required name `package` occurring at two
header positions (0 and 3), the resolver picks the last occurrence, so
permuting the header's and every row's fields with the swap of positions 0
and 3 leaves the header unchanged but selects a different physical column:
the resulting index differs at the key `p2|amd64|22.04`. -/
theorem C6_counterexample :
    hmFind (buildRows (applyPerm 4 sigmaSwap03 ["package", "architecture", "release", "package"])
        (resolveColumns (applyPerm 4 sigmaSwap03
          ["package", "architecture", "release", "package"])).1
        (resolveColumns (applyPerm 4 sigmaSwap03
          ["package", "architecture", "release", "package"])).2.1
        (resolveColumns (applyPerm 4 sigmaSwap03
          ["package", "architecture", "release", "package"])).2.2
        (List.map (applyPerm 4 sigmaSwap03) [["p1", "amd64", "22.04", "p2"]])).hashmap
        "p2|amd64|22.04"
      ≠ Option.map (applyPerm 4 sigmaSwap03)
          (hmFind (buildRows ["package", "architecture", "release", "package"]
            (resolveColumns ["package", "architecture", "release", "package"]).1
            (resolveColumns ["package", "architecture", "release", "package"]).2.1
            (resolveColumns ["package", "architecture", "release", "package"]).2.2
            [["p1", "amd64", "22.04", "p2"]]).hashmap "p2|amd64|22.04") := by
  decide

/-- C6 (amended): for every header in which each required column name
occurs at exactly one position and every permutation of the column
positions, applying the same permutation to the header's fields and to
every data row's fields yields an identical resulting index: the same set
of composite keys, each mapped to the correspondingly permuted stored
row. -/
theorem C6_amended (headers : List String) (rows : List (List String))
    (σ : Equiv.Perm (Fin headers.length))
    (hcP : headers.count "package" = 1)
    (hcA : headers.count "architecture" = 1)
    (hcR : headers.count "release" = 1) :
    ∀ k, hmFind (buildRows (applyPerm headers.length σ headers)
        (resolveColumns (applyPerm headers.length σ headers)).1
        (resolveColumns (applyPerm headers.length σ headers)).2.1
        (resolveColumns (applyPerm headers.length σ headers)).2.2
        (rows.map (applyPerm headers.length σ))).hashmap k
      = Option.map (applyPerm headers.length σ)
          (hmFind (buildRows headers (resolveColumns headers).1
            (resolveColumns headers).2.1 (resolveColumns headers).2.2 rows).hashmap k) := by
  have hmP : "package" ∈ headers := by
    by_contra hq
    rw [List.count_eq_zero.mpr hq] at hcP
    exact Nat.noConfusion hcP
  have hmA : "architecture" ∈ headers := by
    by_contra hq
    rw [List.count_eq_zero.mpr hq] at hcA
    exact Nat.noConfusion hcA
  have hmR : "release" ∈ headers := by
    by_contra hq
    rw [List.count_eq_zero.mpr hq] at hcR
    exact Nat.noConfusion hcR
  obtain ⟨hPlt, hPget, _⟩ := resolvedIdx_of_mem "package" headers hmP
  obtain ⟨hAlt, hAget, _⟩ := resolvedIdx_of_mem "architecture" headers hmA
  obtain ⟨hRlt, hRget, _⟩ := resolvedIdx_of_mem "release" headers hmR
  have huP : ∀ j, headers.get? j = some "package" → j = resolvedIdx "package" headers :=
    fun j hj => get?_eq_of_count_one headers "package" hcP j _ hj hPget
  have huA : ∀ j, headers.get? j = some "architecture"
      → j = resolvedIdx "architecture" headers :=
    fun j hj => get?_eq_of_count_one headers "architecture" hcA j _ hj hAget
  have huR : ∀ j, headers.get? j = some "release" → j = resolvedIdx "release" headers :=
    fun j hj => get?_eq_of_count_one headers "release" hcR j _ hj hRget
  have hP' := lastOccRel_applyPerm_unique headers σ "package" _ hPlt hPget huP
  have hA' := lastOccRel_applyPerm_unique headers σ "architecture" _ hAlt hAget huA
  have hR' := lastOccRel_applyPerm_unique headers σ "release" _ hRlt hRget huR
  have hkey : ∀ row : List String, row.length = headers.length →
      make_key (applyPerm headers.length σ row)
        ((σ.symm ⟨resolvedIdx "package" headers, hPlt⟩).val)
        ((σ.symm ⟨resolvedIdx "architecture" headers, hAlt⟩).val)
        ((σ.symm ⟨resolvedIdx "release" headers, hRlt⟩).val)
      = make_key row (resolvedIdx "package" headers) (resolvedIdx "architecture" headers)
          (resolvedIdx "release" headers) := by
    intro row hrow
    unfold make_key
    rw [applyPerm_getD_symm headers.length σ row hrow _ hPlt,
      applyPerm_getD_symm headers.length σ row hrow _ hAlt,
      applyPerm_getD_symm headers.length σ row hrow _ hRlt]
  intro k
  simp only [resolveColumns_eq, hP', hA', hR']
  exact buildAuxRows_perm headers σ
    (resolvedIdx "package" headers) (resolvedIdx "architecture" headers)
    (resolvedIdx "release" headers)
    ((σ.symm ⟨resolvedIdx "package" headers, hPlt⟩).val)
    ((σ.symm ⟨resolvedIdx "architecture" headers, hAlt⟩).val)
    ((σ.symm ⟨resolvedIdx "release" headers, hRlt⟩).val)
    hkey rows 1 [] [] (fun _ => rfl) k

/-- C6 witness: the amended claim evaluated on a three-column header with
the swap of positions 0 and 2, at the key `a|b|c`. -/
theorem C6_witness :
    hmFind (buildRows (applyPerm 3 sigmaSwap02 ["package", "architecture", "release"])
        (resolveColumns (applyPerm 3 sigmaSwap02 ["package", "architecture", "release"])).1
        (resolveColumns (applyPerm 3 sigmaSwap02 ["package", "architecture", "release"])).2.1
        (resolveColumns (applyPerm 3 sigmaSwap02 ["package", "architecture", "release"])).2.2
        (List.map (applyPerm 3 sigmaSwap02) [["a", "b", "c"]])).hashmap "a|b|c"
      = Option.map (applyPerm 3 sigmaSwap02)
          (hmFind (buildRows ["package", "architecture", "release"]
            (resolveColumns ["package", "architecture", "release"]).1
            (resolveColumns ["package", "architecture", "release"]).2.1
            (resolveColumns ["package", "architecture", "release"]).2.2
            [["a", "b", "c"]]).hashmap "a|b|c") :=
  C6_amended ["package", "architecture", "release"] [["a", "b", "c"]] sigmaSwap02
    (by decide) (by decide) (by decide) "a|b|c"


end CsvHashmap

